import Mathlib

/-
  Verification development for the crawler in task1/hw1/crawler.py.

  The crawler's pure logic is translated directly.  External capabilities
  (the HTTP transport, the HTML anchor extractor with URL joining, and the
  byte-to-text decoder) are modelled as components of an explicit
  environment, matching the way the design document treats them as
  capabilities outside the core.
-/

namespace Crawler

/-- Configured maximum accepted body size in bytes (MAX_BYTES = 5_000_000). -/
def MAX_BYTES : Nat := 5000000

/-- Base domain (BASE). -/
def BASE : String := "https://ilibrary.ru"

/-- Seed listing page (AUTHORS_PAGE = BASE + "/author.html"). -/
def AUTHORS_PAGE : String := BASE ++ "/author.html"

/-- Download quota required by the assignment (MIN_PAGES_TO_DOWNLOAD). -/
def MIN_PAGES_TO_DOWNLOAD : Nat := 100

/-- Consume an exact literal from the front of a character list; on success
    return the remainder. -/
def dropLit : List Char → List Char → Option (List Char)
  | [], s => some s
  | _ :: _, [] => none
  | c :: cs, d :: ds => if c = d then dropLit cs ds else none

/-- Consume an optional literal, greedily (regex form with a question mark). -/
def optDrop (lit s : List Char) : List Char :=
  match dropLit lit s with
  | some t => t
  | none => s

/-- Consume one or more decimal digits, greedily (regex \d+; ASCII digits). -/
def dropDigits1 : List Char → Option (List Char)
  | [] => none
  | c :: cs => if c.isDigit then some (cs.dropWhile Char.isDigit) else none

/-- Consume one or more non-slash characters, greedily (regex [^/]+). -/
def dropSeg1 : List Char → Option (List Char)
  | [] => none
  | c :: cs => if c = '/' then none else some (cs.dropWhile (fun d => d != '/'))

/-- Scheme and host shared by both site patterns:
    https?://(?:www\.)?ilibrary\.ru . -/
def dropSchemeHost (s : List Char) : Option (List Char) :=
  match dropLit "http".toList s with
  | none => none
  | some s1 =>
    match dropLit "://".toList (optDrop ['s'] s1) with
    | none => none
    | some s2 => dropLit "ilibrary.ru".toList (optDrop "www.".toList s2)

/-- Acceptance of the Python regex dollar anchor: end of input, or a single
    final newline. -/
def endOk : List Char → Bool
  | [] => true
  | [c] => c == '\n'
  | _ => false

/-- TEXT_PAGE_RE:
    ^https?://(?:www\.)?ilibrary\.ru/text/\d+/p\.\d+/index\.html$ . -/
def TEXT_PAGE_match (u : String) : Bool :=
  match dropSchemeHost u.toList with
  | none => false
  | some s1 =>
    match dropLit "/text/".toList s1 with
    | none => false
    | some s2 =>
      match dropDigits1 s2 with
      | none => false
      | some s3 =>
        match dropLit "/p.".toList s3 with
        | none => false
        | some s4 =>
          match dropDigits1 s4 with
          | none => false
          | some s5 =>
            match dropLit "/index.html".toList s5 with
            | none => false
            | some s6 => endOk s6

/-- Author-index pattern used in get_author_pages:
    ^https?://(?:www\.)?ilibrary\.ru/author/[^/]+/index\.html$ . -/
def AUTHOR_PAGE_match (u : String) : Bool :=
  match dropSchemeHost u.toList with
  | none => false
  | some s1 =>
    match dropLit "/author/".toList s1 with
    | none => false
    | some s2 =>
      match dropSeg1 s2 with
      | none => false
      | some s3 =>
        match dropLit "/index.html".toList s3 with
        | none => false
        | some s4 => endOk s4

/-- Test that a literal occurs at the head of the list. -/
def startsList (pat s : List Char) : Bool := (dropLit pat s).isSome

/-- Python substring membership test on character lists. -/
def containsSub (pat : List Char) : List Char → Bool
  | [] => startsList pat []
  | c :: rest => startsList pat (c :: rest) || containsSub pat rest

/-- Fuel-indexed Python str.replace (leftmost, non-overlapping occurrences).
    Fuel equal to the subject length suffices for a nonempty pattern. -/
def replaceAllFuel (pat rep : List Char) : Nat → List Char → List Char
  | _, [] => []
  | 0, s => s
  | fuel + 1, c :: rest =>
    match dropLit pat (c :: rest) with
    | some remaining => rep ++ replaceAllFuel pat rep fuel remaining
    | none => c :: replaceAllFuel pat rep fuel rest

/-- Python str.replace for a nonempty pattern. -/
def pyReplace (s pat rep : String) : String :=
  ⟨replaceAllFuel pat.toList rep.toList s.toList.length s.toList⟩

/-- author_to_all_works_url: author_index_url.replace("/index.html",
    "/l.all/index.html"). -/
def author_to_all_works_url (u : String) : String :=
  pyReplace u "/index.html" "/l.all/index.html"

/-- One HTTP response as fetch_html observes it: transport success, the
    Content-Type header, the streamed body chunks (as byte lists), and the
    transport-declared encoding. -/
structure Response where
  transportError : Bool
  contentType : Option String
  chunks : List (List Nat)
  encoding : Option String

/-- The environment: responses per URL, the byte decoder (encoding name and
    raw bytes to text), and the anchor extractor of extract_links (html and
    base URL to absolute URLs).  The latter two are the external capabilities
    the design document names. -/
structure Env where
  fetch : String → Response
  decode : String → List Nat → String
  extractLinks : String → String → List String

/-- The four return sites of fetch_html, one constructor per distinct
    logged outcome. -/
inductive FetchResult where
  | ok (body : String)
  | skippedTransportError
  | skippedNotHtml
  | skippedTooLarge
deriving DecidableEq

/-- Lowercased Content-Type header: (resp.headers.get("Content-Type") or
    "").lower(), as a character-wise lowercasing. -/
def ctypeOf (r : Response) : String := ⟨(r.contentType.getD "").toList.map Char.toLower⟩

/-- Python test "text/html" in ctype. -/
def isHtmlCT (r : Response) : Bool := containsSub "text/html".toList (ctypeOf r).toList

/-- Streaming loop of fetch_html: skip empty chunks, accumulate the running
    byte count, abort as soon as it exceeds the cap, otherwise keep the
    chunk. -/
def streamBody (maxB : Nat) : List (List Nat) → Nat → Option (List Nat)
  | [], _ => some []
  | c :: cs, total =>
    if c.isEmpty then streamBody maxB cs total
    else if maxB < total + c.length then none
    else (streamBody maxB cs (total + c.length)).map (fun raw => c ++ raw)

/-- fetch_html classified by its four return sites. -/
def classifyResp (decode : String → List Nat → String) (r : Response) : FetchResult :=
  if r.transportError then .skippedTransportError
  else if !(isHtmlCT r) then .skippedNotHtml
  else
    match streamBody MAX_BYTES r.chunks 0 with
    | none => .skippedTooLarge
    | some raw => .ok (decode (r.encoding.getD "utf-8") raw)

def fetch_classify (env : Env) (url : String) : FetchResult :=
  classifyResp env.decode (env.fetch url)

/-- fetch_html as the source returns it: the decoded body on success, None
    on every skip. -/
def fetch_html (env : Env) (url : String) : Option String :=
  match fetch_classify env url with
  | .ok body => some body
  | _ => none

/-- Python truthiness of the optional string fetch_html returns. -/
def pyTruthy : Option String → Bool
  | none => false
  | some s => !s.isEmpty

/-- Order-preserving dedup loop of get_author_pages (seen set and uniq
    list grown together). -/
def uniqLoop : List String → List String → List String
  | [], _ => []
  | u :: rest, seen =>
    if seen.contains u then uniqLoop rest seen
    else u :: uniqLoop rest (seen ++ [u])

/-- Message of the RuntimeError raised when the seed page cannot be read. -/
def seedFailureMsg : String := "Не удалось скачать страницу author.html"

/-- get_author_pages: fetch the seed page (falsy result raises), extract
    links, keep author-index URLs, dedup preserving order. -/
def get_author_pages (env : Env) : Except String (List String) :=
  match fetch_html env AUTHORS_PAGE with
  | none => .error seedFailureMsg
  | some html =>
    if html.isEmpty then .error seedFailureMsg
    else
      .ok (uniqLoop ((env.extractLinks html AUTHORS_PAGE).filter AUTHOR_PAGE_match) [])

/-- Inner link loop of collect_text_page_urls: keep pattern matches not yet
    seen, stop once the collected list reaches the limit. -/
def inner_loop (limit : Nat) : List String → List String → List String → List String × List String
  | [], collected, seen => (collected, seen)
  | u :: rest, collected, seen =>
    if TEXT_PAGE_match u then
      if seen.contains u then inner_loop limit rest collected seen
      else
        if limit ≤ (collected ++ [u]).length then (collected ++ [u], seen ++ [u])
        else inner_loop limit rest (collected ++ [u]) (seen ++ [u])
    else inner_loop limit rest collected seen

/-- Outer author loop of collect_text_page_urls. -/
def outer_loop (env : Env) (limit : Nat) : List String → List String → List String → List String
  | [], collected, _ => collected
  | a :: rest, collected, seen =>
    if limit ≤ collected.length then collected
    else
      match fetch_html env (author_to_all_works_url a) with
      | none => outer_loop env limit rest collected seen
      | some html =>
        if html.isEmpty then outer_loop env limit rest collected seen
        else
          match inner_loop limit (env.extractLinks html (author_to_all_works_url a)) collected seen with
          | (c2, s2) => outer_loop env limit rest c2 s2

/-- collect_text_page_urls: authors from the seed resolver (a failure there
    propagates), then the fan-out collection loop from empty state. -/
def collect_text_page_urls (env : Env) (limit : Nat) : Except String (List String) :=
  match get_author_pages env with
  | .error e => .error e
  | .ok authors => .ok (outer_loop env limit authors [] [])

/-- Result state of download_pages: the returned counter, the persisted
    document files (sequence number and body; the file name is the number
    with the txt extension), and the in-memory index lines as number and
    source URL pairs. -/
structure DownloadResult where
  saved : Nat
  docs : List (Nat × String)
  entries : List (Nat × String)
deriving DecidableEq

/-- Download loop of download_pages: stop at the quota, skip falsy fetches
    and bodies shorter than 1000 characters, otherwise persist under the
    next sequence number and record the index line. -/
def download_loop (env : Env) (need : Nat) :
    List String → Nat → List (Nat × String) → List (Nat × String) → DownloadResult
  | [], saved, docs, entries => ⟨saved, docs, entries⟩
  | url :: rest, saved, docs, entries =>
    if need ≤ saved then ⟨saved, docs, entries⟩
    else
      match fetch_html env url with
      | none => download_loop env need rest saved docs entries
      | some html =>
        if html.isEmpty then download_loop env need rest saved docs entries
        else if html.length < 1000 then download_loop env need rest saved docs entries
        else download_loop env need rest (saved + 1)
          (docs ++ [(saved + 1, html)]) (entries ++ [(saved + 1, url)])

def download_pages (env : Env) (urls : List String) (need : Nat) : DownloadResult :=
  download_loop env need urls 0 [] []

/-- One index line: f-string "num tab url". -/
def indexLine (num : Nat) (url : String) : String := toString num ++ "\t" ++ url

/-- Python str.join with a separator. -/
def joinSep (sep : String) : List String → String
  | [] => ""
  | [x] => x
  | x :: y :: rest => x ++ sep ++ joinSep sep (y :: rest)

/-- Content written to index.txt: newline-joined lines plus a trailing
    newline iff the line list is nonempty. -/
def index_artifact (entries : List (Nat × String)) : String :=
  joinSep "\n" (entries.map fun e => indexLine e.1 e.2) ++
    (if entries.isEmpty then "" else "\n")

/-- Concatenation of a list of strings. -/
def concatAll : List String → String
  | [] => ""
  | x :: rest => x ++ concatAll rest

/-- Content written to urls.txt: one URL per line. -/
def urls_artifact (urls : List String) : String := concatAll (urls.map fun u => u ++ "\n")

/-- File-system writes the run performs, in order.  Document writes happen
    inside the download loop; the index is one write of the whole artifact. -/
inductive FsEvent where
  | writeUrls (content : String)
  | writeDoc (num : Nat) (content : String)
  | writeIndex (entries : List (Nat × String))
deriving DecidableEq

/-- The write sequence of download_pages: one document write per saved page,
    then the single index write after the loop. -/
def download_trace (env : Env) (urls : List String) (need : Nat) : List FsEvent :=
  ((download_pages env urls need).docs.map fun d => FsEvent.writeDoc d.1 d.2)
    ++ [FsEvent.writeIndex (download_pages env urls need).entries]

/-- main: collect with limit 1200, write urls.txt, download with the
    100-page quota; the seed failure propagates as the only exception. -/
def main_run (env : Env) : Except String (List String × DownloadResult) :=
  match collect_text_page_urls env 1200 with
  | .error e => .error e
  | .ok urls => .ok (urls, download_pages env urls MIN_PAGES_TO_DOWNLOAD)

/-- The write sequence of main: nothing on a seed failure, otherwise the
    urls.txt write followed by the download writes. -/
def main_trace (env : Env) : List FsEvent :=
  match collect_text_page_urls env 1200 with
  | .error _ => []
  | .ok urls => FsEvent.writeUrls (urls_artifact urls) :: download_trace env urls MIN_PAGES_TO_DOWNLOAD

/-- Documents persisted within a write sequence. -/
def docsIn : List FsEvent → List (Nat × String)
  | [] => []
  | FsEvent.writeDoc n c :: rest => (n, c) :: docsIn rest
  | _ :: rest => docsIn rest

/-- Index entries persisted after a write sequence: payload of the last
    index write, empty when none happened yet. -/
def indexState (evs : List FsEvent) : List (Nat × String) :=
  evs.foldl (fun acc e => match e with | FsEvent.writeIndex es => es | _ => acc) []

/-- Durability property claimed for the index: at every intermediate state
    of the write sequence, every persisted document already has an index
    entry with its number persisted as well. -/
def indexDurable (evs : List FsEvent) : Prop :=
  ∀ p : List FsEvent, p <+: evs → ∀ d ∈ docsIn p, ∃ u, (d.1, u) ∈ indexState p

/-- A URL qualifies for persistence in download_pages when its fetch is
    truthy and the decoded body has at least 1000 characters. -/
def qualifies (env : Env) (u : String) : Bool :=
  match fetch_html env u with
  | none => false
  | some h => if h.isEmpty then false else if h.length < 1000 then false else true

/-- Decoded body of a URL, defaulting to the empty string. -/
def bodyOf (env : Env) (u : String) : String := (fetch_html env u).getD ""

/-- Total byte count of a chunk stream. -/
def totalLen (chunks : List (List Nat)) : Nat := (chunks.map List.length).sum

/-- Concatenation of all chunks of a stream. -/
def flattenChunks : List (List Nat) → List Nat
  | [] => []
  | c :: cs => c ++ flattenChunks cs

/-- Modelled from the spec, for comparison with the collector (section 4.5):
    append each not-yet-present URL of the stream in first-seen order,
    stopping once the accumulator holds limit entries. -/
def firstSeenTake (limit : Nat) : List String → List String → List String
  | acc, [] => acc
  | acc, u :: rest =>
    if limit ≤ acc.length then acc
    else if acc.contains u then firstSeenTake limit acc rest
    else firstSeenTake limit (acc ++ [u]) rest

/-- Modelled from the spec, for comparison with the collector: text-page
    links contributed by one author, empty when the works-list fetch is
    falsy. -/
def authorBlock (env : Env) (a : String) : List String :=
  match fetch_html env (author_to_all_works_url a) with
  | none => []
  | some html =>
    if html.isEmpty then []
    else (env.extractLinks html (author_to_all_works_url a)).filter TEXT_PAGE_match

/-- Modelled from the spec, for comparison with the collector: the full
    discovery stream over the author list in order. -/
def authorStream (env : Env) : List String → List String
  | [] => []
  | a :: rest => authorBlock env a ++ authorStream env rest

/-- The qualifying URLs the loop can still save, in list order. -/
def quotaLeft (env : Env) (need saved : Nat) (urls : List String) : List String :=
  (urls.filter (qualifies env)).take (need - saved)

instance : Nonempty DownloadResult := ⟨⟨0, [], []⟩⟩

/-- Character list of the replaced pattern without its leading slash. -/
def idxL : List Char := ['i', 'n', 'd', 'e', 'x', '.', 'h', 't', 'm', 'l']

/-- Character list of the replaced pattern of author_to_all_works_url. -/
def patL : List Char := '/' :: idxL

/-- True when no nonempty suffix of the subject, extended by the
    continuation, starts with the pattern: scanning the subject, the
    replacer never fires before reaching the continuation. -/
def noHitFrom (pat cont : List Char) : List Char → Bool
  | [] => true
  | c :: rest => !startsList pat (c :: (rest ++ cont)) && noHitFrom pat cont rest

/-- Witness material: a small successful HTML response. -/
def okResp : Response := ⟨false, some "text/html", [[97]], none⟩

/-- Witness material: a body of exactly 1000 characters, the minimum the
    downloader accepts. -/
def bigBody : String := ⟨List.replicate 1000 'a'⟩

/-- Witness environment: every URL yields the 1000-character HTML body; the
    seed page links to one author page, works pages link to two text pages
    and assorted noise. -/
def envW : Env :=
  ⟨fun _ => okResp,
   fun _ _ => bigBody,
   fun _ base =>
     if base = AUTHORS_PAGE then ["https://ilibrary.ru/author/a/index.html", "x"]
     else ["https://ilibrary.ru/text/1/p.1/index.html",
           "https://ilibrary.ru/text/1/p.1/index.html",
           "https://ilibrary.ru/text/2/p.1/index.html", "y"]⟩

/-- Witness environment: every response decodes to the empty string. -/
def envEmpty : Env := ⟨fun _ => okResp, fun _ _ => "", fun _ _ => []⟩

/-- Witness environment: a single-chunk response one byte over the cap. -/
def envBig : Env :=
  ⟨fun _ => ⟨false, some "text/html", [List.replicate (MAX_BYTES + 1) 0], none⟩,
   fun _ _ => bigBody, fun _ _ => []⟩

/-- Witness environment: a JSON response. -/
def envJson : Env :=
  ⟨fun _ => ⟨false, some "application/json", [[97]], none⟩,
   fun _ _ => bigBody, fun _ _ => []⟩

theorem totalLen_cons (c : List Nat) (cs : List (List Nat)) :
    totalLen (c :: cs) = c.length + totalLen cs := by
  simp [totalLen]

theorem streamBody_eq_none_iff (maxB : Nat) :
    ∀ (cs : List (List Nat)) (total : Nat), total ≤ maxB →
      (streamBody maxB cs total = none ↔ maxB < total + totalLen cs) := by
  intro cs
  induction cs with
  | nil =>
    intro total h
    simp only [streamBody, totalLen, List.map_nil, List.sum_nil]
    constructor
    · intro hc; exact absurd hc (by simp)
    · intro hc; omega
  | cons c cs ih =>
    intro total h
    by_cases hc : c.isEmpty
    · have hlen : c.length = 0 := by
        rw [List.isEmpty_iff] at hc; simp [hc]
      rw [streamBody, if_pos hc, ih total h, totalLen_cons, hlen]
      omega
    · rw [streamBody, if_neg hc]
      by_cases hov : maxB < total + c.length
      · rw [if_pos hov]
        simp only [totalLen_cons]
        simp only [true_iff]
        omega
      · rw [if_neg hov]
        push_neg at hov
        rw [Option.map_eq_none', ih (total + c.length) hov, totalLen_cons]
        omega

theorem streamBody_eq_some (maxB : Nat) :
    ∀ (cs : List (List Nat)) (total : Nat), total + totalLen cs ≤ maxB →
      streamBody maxB cs total = some (flattenChunks cs) := by
  intro cs
  induction cs with
  | nil => intro total h; simp [streamBody, flattenChunks]
  | cons c cs ih =>
    intro total h
    rw [totalLen_cons] at h
    by_cases hc : c.isEmpty
    · have hnil : c = [] := List.isEmpty_iff.mp hc
      subst hnil
      rw [streamBody, if_pos hc, ih total (by simpa using h)]
      simp [flattenChunks]
    · rw [streamBody, if_neg hc, if_neg (by omega),
        ih (total + c.length) (by omega)]
      simp [flattenChunks]

/-- C4: a streamed body exceeding the byte cap by even one byte yields the
    too-large skip outcome and no body reaches the caller; a body within the
    cap is never rejected on size grounds and is returned whole (decoded). -/
theorem size_cap (env : Env) (url : String)
    (h1 : (env.fetch url).transportError = false)
    (h2 : isHtmlCT (env.fetch url) = true) :
    fetch_classify env url =
      (if MAX_BYTES < totalLen (env.fetch url).chunks then FetchResult.skippedTooLarge
       else FetchResult.ok (env.decode ((env.fetch url).encoding.getD "utf-8")
            (flattenChunks (env.fetch url).chunks))) ∧
    fetch_html env url =
      (if MAX_BYTES < totalLen (env.fetch url).chunks then none
       else some (env.decode ((env.fetch url).encoding.getD "utf-8")
            (flattenChunks (env.fetch url).chunks))) := by
  have hcl : fetch_classify env url =
      (if MAX_BYTES < totalLen (env.fetch url).chunks then FetchResult.skippedTooLarge
       else FetchResult.ok (env.decode ((env.fetch url).encoding.getD "utf-8")
            (flattenChunks (env.fetch url).chunks))) := by
    unfold fetch_classify classifyResp
    rw [h1, if_neg (by simp), h2]
    simp only [Bool.not_true, Bool.false_eq_true, if_false]
    by_cases hov : MAX_BYTES < totalLen (env.fetch url).chunks
    · rw [if_pos hov]
      have := (streamBody_eq_none_iff MAX_BYTES (env.fetch url).chunks 0 (by omega)).mpr
        (by omega)
      rw [this]
    · rw [if_neg hov]
      push_neg at hov
      rw [streamBody_eq_some MAX_BYTES (env.fetch url).chunks 0 (by omega)]
  refine ⟨hcl, ?_⟩
  unfold fetch_html
  rw [hcl]
  by_cases hov : MAX_BYTES < totalLen (env.fetch url).chunks
  · rw [if_pos hov, if_pos hov]
  · rw [if_neg hov, if_neg hov]

theorem download_loop_stop (env : Env) (need : Nat) (urls : List String)
    (saved : Nat) (docs entries : List (Nat × String)) (h : need ≤ saved) :
    download_loop env need urls saved docs entries = ⟨saved, docs, entries⟩ := by
  cases urls with
  | nil => rfl
  | cons u rest => rw [download_loop, if_pos h]

theorem download_loop_char (env : Env) (need : Nat) :
    ∀ (urls : List String) (saved : Nat) (docs entries : List (Nat × String)),
      saved ≤ need →
      download_loop env need urls saved docs entries =
        ⟨saved + (quotaLeft env need saved urls).length,
         docs ++ (List.range' (saved + 1) (quotaLeft env need saved urls).length).zip
             ((quotaLeft env need saved urls).map (bodyOf env)),
         entries ++ (List.range' (saved + 1) (quotaLeft env need saved urls).length).zip
             (quotaLeft env need saved urls)⟩ := by
  intro urls
  induction urls with
  | nil =>
    intro saved docs entries h
    simp [download_loop, quotaLeft]
  | cons u rest ih =>
    intro saved docs entries h
    by_cases hstop : need ≤ saved
    · have hz : need - saved = 0 := by omega
      rw [download_loop_stop env need _ saved docs entries hstop]
      simp [quotaLeft, hz]
    · push_neg at hstop
      rw [download_loop, if_neg (by omega)]
      cases hfetch : fetch_html env u with
      | none =>
        have hq : qualifies env u = false := by simp [qualifies, hfetch]
        rw [ih saved docs entries h]
        simp [quotaLeft, List.filter_cons, hq]
      | some html =>
        dsimp only
        by_cases hemp : html.isEmpty
        · have hq : qualifies env u = false := by simp [qualifies, hfetch, hemp]
          rw [if_pos hemp, ih saved docs entries h]
          simp [quotaLeft, List.filter_cons, hq]
        · by_cases hshort : html.length < 1000
          · have hq : qualifies env u = false := by
              simp [qualifies, hfetch, hemp, hshort]
            rw [if_neg hemp, if_pos hshort, ih saved docs entries h]
            simp [quotaLeft, List.filter_cons, hq]
          · have hq : qualifies env u = true := by
              simp [qualifies, hfetch, hemp, hshort]
            rw [if_neg hemp, if_neg hshort, ih (saved + 1) _ _ (by omega)]
            obtain ⟨k, hk⟩ : ∃ k, need - saved = k + 1 := ⟨need - saved - 1, by omega⟩
            have hk1 : need - (saved + 1) = k := by omega
            have hbody : bodyOf env u = html := by simp [bodyOf, hfetch]
            simp only [quotaLeft, List.filter_cons, hq, if_true, hk, hk1,
              List.take_succ_cons, List.length_cons, List.range'_succ,
              List.map_cons, List.zip_cons_cons, hbody]
            rw [DownloadResult.mk.injEq]
            refine ⟨by omega, ?_, ?_⟩ <;> simp [List.append_assoc]

theorem download_pages_char (env : Env) (urls : List String) (need : Nat) :
    download_pages env urls need =
      ⟨(quotaLeft env need 0 urls).length,
       (List.range' 1 (quotaLeft env need 0 urls).length).zip
         ((quotaLeft env need 0 urls).map (bodyOf env)),
       (List.range' 1 (quotaLeft env need 0 urls).length).zip (quotaLeft env need 0 urls)⟩ := by
  have h := download_loop_char env need urls 0 [] [] (Nat.zero_le _)
  simpa [download_pages] using h

/-- C1: after a download run returning savedCount k, the persisted document
    files carry exactly the sequence numbers 1..k in order (no gaps, no
    repeats), and the index lines are in 1:1 correspondence with them, the
    i-th line bearing the same sequence number as the i-th file. -/
theorem download_numbering (env : Env) (urls : List String) (need : Nat) :
    ((download_pages env urls need).docs.map Prod.fst
        = List.range' 1 (download_pages env urls need).saved) ∧
    ((download_pages env urls need).entries.map Prod.fst
        = List.range' 1 (download_pages env urls need).saved) ∧
    (download_pages env urls need).entries.length
        = (download_pages env urls need).docs.length := by
  rw [download_pages_char]
  refine ⟨?_, ?_, ?_⟩
  · exact List.map_fst_zip _ _ (by simp)
  · exact List.map_fst_zip _ _ (by simp)
  · simp

/-- C3: the returned savedCount is the smaller of the quota and the number
    of qualifying URLs (fetch truthy and body length at least 1000), the
    index records exactly the first savedCount qualifying URLs in list
    order, and the count never exceeds the quota; a shortfall is an
    ordinary return value, not an error. -/
theorem download_shortfall (env : Env) (urls : List String) (need : Nat) :
    (download_pages env urls need).saved
        = min need (urls.countP (qualifies env)) ∧
    (download_pages env urls need).entries.map Prod.snd
        = (urls.filter (qualifies env)).take (download_pages env urls need).saved ∧
    (download_pages env urls need).saved ≤ need := by
  have hlen : (quotaLeft env need 0 urls).length
      = min need (urls.countP (qualifies env)) := by
    simp [quotaLeft, List.countP_eq_length_filter]
  refine ⟨?_, ?_, ?_⟩
  · rw [download_pages_char]; exact hlen
  · rw [download_pages_char]
    rw [List.map_snd_zip _ _ (by simp)]
    rw [hlen]
    have hcp : urls.countP (qualifies env) = (urls.filter (qualifies env)).length := by
      simp [List.countP_eq_length_filter]
    rcases Nat.le_total need ((urls.filter (qualifies env)).length) with hc | hc
    · rw [Nat.min_eq_left (by omega)]
      simp [quotaLeft]
    · rw [Nat.min_eq_right (by omega)]
      rw [hcp, List.take_length]
      simp [quotaLeft, List.take_of_length_le hc]
  · rw [download_pages_char]
    simp [quotaLeft]

theorem joinSep_line (ls : List String) :
    joinSep "\n" ls ++ (if ls.isEmpty then "" else "\n")
      = concatAll (ls.map fun x => x ++ "\n") := by
  induction ls with
  | nil => simp [joinSep, concatAll]
  | cons x rest ih =>
    cases rest with
    | nil => simp [joinSep, concatAll]
    | cons y t =>
      simp only [List.isEmpty_cons, if_neg] at ih ⊢
      rw [List.map_cons, concatAll, ← ih]
      simp only [joinSep, List.isEmpty_cons]
      rw [String.append_assoc, String.append_assoc]

/-- C7: the index artifact is the concatenation, in entry order, of one
    line per entry of the form number, tab, URL, newline; hence the
    trailing newline exists iff some entry exists, the empty entry list
    writes an empty artifact, and the entries of a download run appear in
    ascending sequence order 1..savedCount. -/
theorem index_artifact_shape (env : Env) (urls : List String) (need : Nat) :
    index_artifact (download_pages env urls need).entries
        = concatAll ((download_pages env urls need).entries.map
            fun e => indexLine e.1 e.2 ++ "\n") ∧
    ((download_pages env urls need).entries.map Prod.fst
        = List.range' 1 (download_pages env urls need).saved) ∧
    index_artifact ([] : List (Nat × String)) = "" := by
  refine ⟨?_, ?_, by simp [index_artifact, joinSep]⟩
  · rw [index_artifact]
    rw [show ((download_pages env urls need).entries.map
        fun e => indexLine e.1 e.2 ++ "\n")
      = (((download_pages env urls need).entries.map fun e => indexLine e.1 e.2).map
        fun x => x ++ "\n") from by simp]
    rw [← joinSep_line]
    simp [List.isEmpty_iff]
  · rw [download_pages_char]
    exact List.map_fst_zip _ _ (by simp)

theorem docsIn_trace (docs : List (Nat × String)) (es : List (Nat × String)) :
    docsIn ((docs.map fun d => FsEvent.writeDoc d.1 d.2) ++ [FsEvent.writeIndex es])
      = docs := by
  induction docs with
  | nil => rfl
  | cons d rest ih => simp [docsIn, ih]

theorem indexState_trace (docs : List (Nat × String)) (es : List (Nat × String)) :
    indexState ((docs.map fun d => FsEvent.writeDoc d.1 d.2) ++ [FsEvent.writeIndex es])
      = es := by
  rw [indexState, List.foldl_append]
  rfl

/-- C9 amended: document writes happen one by one inside the loop, but the
    index is buffered and written exactly once, as the final write of the
    run; the 1:1 number correspondence between persisted documents and
    persisted index entries therefore holds at the completed trace (not at
    every intermediate prefix). -/
theorem index_write_deferred (env : Env) (urls : List String) (need : Nat) :
    (docsIn (download_trace env urls need)).map Prod.fst
        = (indexState (download_trace env urls need)).map Prod.fst ∧
    (download_trace env urls need).getLast?
        = some (FsEvent.writeIndex (download_pages env urls need).entries) := by
  constructor
  · rw [download_trace, docsIn_trace, indexState_trace]
    have h1 := download_pages_char env urls need
    rw [h1]
    rw [List.map_fst_zip _ _ (by simp), List.map_fst_zip _ _ (by simp)]
  · rw [download_trace]
    simp

theorem outer_loop_stop (env : Env) (limit : Nat) (authors : List String)
    (collected seen : List String) (h : limit ≤ collected.length) :
    outer_loop env limit authors collected seen = collected := by
  cases authors with
  | nil => rfl
  | cons a rest => rw [outer_loop, if_pos h]

/-- C6: the run errors out (with the seed failure message, producing no
    write at all) exactly when the seed fetch is falsy; whenever the seed
    fetch is truthy the run completes normally, whatever the other per-URL
    outcomes are. -/
theorem seed_failure_fatal (env : Env) :
    (main_run env = Except.error seedFailureMsg
        ↔ pyTruthy (fetch_html env AUTHORS_PAGE) = false) ∧
    ((∃ v, main_run env = Except.ok v)
        ↔ pyTruthy (fetch_html env AUTHORS_PAGE) = true) ∧
    (main_trace env = [] ↔ pyTruthy (fetch_html env AUTHORS_PAGE) = false) := by
  cases hf : fetch_html env AUTHORS_PAGE with
  | none =>
    simp [main_run, main_trace, collect_text_page_urls, get_author_pages, hf, pyTruthy]
  | some h =>
    by_cases he : h.isEmpty
    · simp [main_run, main_trace, collect_text_page_urls, get_author_pages, hf, pyTruthy, he]
    · simp [main_run, main_trace, collect_text_page_urls, get_author_pages, hf, pyTruthy, he,
        download_trace]

theorem entries_qualify (env : Env) (urls : List String) (need : Nat) :
    ∀ e ∈ (download_pages env urls need).entries, qualifies env e.2 = true := by
  intro e he
  rw [download_pages_char] at he
  have h2 := (List.of_mem_zip he).2
  simp only [quotaLeft] at h2
  have h3 : e.2 ∈ urls.filter (qualifies env) := List.take_subset _ _ h2
  exact (List.mem_filter.mp h3).2

/-- C5: a response whose content-type header does not indicate HTML is
    classified as the not-HTML skip with no body returned, the outcome does
    not depend on the body stream at all (the streaming stage is never
    consulted), and such a URL never contributes a saved file or index
    entry to any download run. -/
theorem ctype_gate (env : Env) (url : String)
    (h1 : (env.fetch url).transportError = false)
    (h2 : isHtmlCT (env.fetch url) = false) :
    fetch_classify env url = FetchResult.skippedNotHtml ∧
    fetch_html env url = none ∧
    (∀ cs : List (List Nat),
        classifyResp env.decode
          ⟨false, (env.fetch url).contentType, cs, (env.fetch url).encoding⟩
          = FetchResult.skippedNotHtml) ∧
    (∀ (urls : List String) (need : Nat),
        ∀ e ∈ (download_pages env urls need).entries, e.2 ≠ url) := by
  have hcl : fetch_classify env url = FetchResult.skippedNotHtml := by
    unfold fetch_classify classifyResp
    rw [h1, if_neg (by simp), h2]
    rfl
  refine ⟨hcl, by rw [fetch_html, hcl], ?_, ?_⟩
  · intro cs
    have h2c : isHtmlCT
        (⟨false, (env.fetch url).contentType, cs, (env.fetch url).encoding⟩ : Response)
        = false := h2
    unfold classifyResp
    rw [h2c]
    rfl
  · intro urls need e he heq
    have hq := entries_qualify env urls need e he
    rw [heq] at hq
    rw [qualifies, fetch_html, hcl] at hq
    exact absurd hq (by simp)

theorem download_loop_skip_empty (env : Env) (need : Nat) (u : String)
    (rest : List String) (saved : Nat) (docs entries : List (Nat × String))
    (hf : fetch_html env u = some "") :
    download_loop env need (u :: rest) saved docs entries
      = download_loop env need rest saved docs entries := by
  by_cases hs : need ≤ saved
  · rw [download_loop_stop env need _ saved docs entries hs,
      download_loop_stop env need _ saved docs entries hs]
  · rw [download_loop, if_neg hs, hf]
    dsimp only
    rw [if_pos (by rfl)]

theorem outer_loop_skip_empty (env : Env) (limit : Nat) (a : String)
    (rest collected seen : List String)
    (hf : fetch_html env (author_to_all_works_url a) = some "") :
    outer_loop env limit (a :: rest) collected seen
      = outer_loop env limit rest collected seen := by
  by_cases hs : limit ≤ collected.length
  · rw [outer_loop_stop env limit _ _ _ hs, outer_loop_stop env limit _ _ _ hs]
  · rw [outer_loop, if_neg hs, hf]
    dsimp only
    rw [if_pos (by rfl)]

/-- C10: a fetch that succeeds with an empty decoded body is handled like a
    failed fetch at all three call sites: at the seed it aborts the run with
    the setup error and no writes, in the collector and downloader the URL
    is skipped and iteration continues unchanged, and such a URL is never
    counted, saved or indexed. -/
theorem empty_body_like_failure :
    (∀ env : Env, fetch_html env AUTHORS_PAGE = some "" →
        main_run env = Except.error seedFailureMsg ∧ main_trace env = []) ∧
    (∀ (env : Env) (limit : Nat) (a : String) (rest collected seen : List String),
        fetch_html env (author_to_all_works_url a) = some "" →
        outer_loop env limit (a :: rest) collected seen
          = outer_loop env limit rest collected seen) ∧
    (∀ (env : Env) (need : Nat) (u : String) (rest : List String) (saved : Nat)
        (docs entries : List (Nat × String)),
        fetch_html env u = some "" →
        download_loop env need (u :: rest) saved docs entries
          = download_loop env need rest saved docs entries) ∧
    (∀ (env : Env) (urls : List String) (need : Nat) (u : String),
        fetch_html env u = some "" →
        ∀ e ∈ (download_pages env urls need).entries, e.2 ≠ u) := by
  refine ⟨?_, outer_loop_skip_empty, download_loop_skip_empty, ?_⟩
  · intro env hf
    have h0 : ("" : String).isEmpty = true := rfl
    constructor
    · simp [main_run, collect_text_page_urls, get_author_pages, hf, h0]
    · simp [main_trace, collect_text_page_urls, get_author_pages, hf, h0]
  · intro env urls need u hf e he heq
    have hq := entries_qualify env urls need e he
    rw [heq, qualifies, hf] at hq
    exact absurd hq (by simp)

theorem firstSeenTake_of_le (limit : Nat) :
    ∀ (l acc : List String), limit ≤ acc.length → firstSeenTake limit acc l = acc := by
  intro l
  induction l with
  | nil => intro acc _; rfl
  | cons u rest _ => intro acc h; rw [firstSeenTake, if_pos h]

theorem firstSeenTake_append (limit : Nat) :
    ∀ (l1 l2 acc : List String),
      firstSeenTake limit acc (l1 ++ l2)
        = firstSeenTake limit (firstSeenTake limit acc l1) l2 := by
  intro l1
  induction l1 with
  | nil => intro l2 acc; rfl
  | cons u rest ih =>
    intro l2 acc
    by_cases h : limit ≤ acc.length
    · rw [List.cons_append, firstSeenTake, if_pos h, firstSeenTake, if_pos h,
        firstSeenTake_of_le limit l2 acc h]
    · by_cases hc : acc.contains u
      · rw [List.cons_append, firstSeenTake, if_neg h, if_pos hc, ih,
          firstSeenTake, if_neg h, if_pos hc]
      · rw [List.cons_append, firstSeenTake, if_neg h, if_neg hc, ih,
          firstSeenTake, if_neg h, if_neg hc]

theorem inner_loop_spec (limit : Nat) :
    ∀ (links : List String) (c : List String), c.length < limit →
      inner_loop limit links c c
        = (firstSeenTake limit c (links.filter TEXT_PAGE_match),
           firstSeenTake limit c (links.filter TEXT_PAGE_match)) := by
  intro links
  induction links with
  | nil => intro c _; rfl
  | cons u rest ih =>
    intro c h
    by_cases hm : TEXT_PAGE_match u
    · rw [List.filter_cons_of_pos hm]
      by_cases hc : c.contains u
      · rw [inner_loop, if_pos hm, if_pos hc, ih c h,
          firstSeenTake, if_neg (by omega), if_pos hc]
      · have hl1 : (c ++ [u]).length = c.length + 1 := by simp
        rw [inner_loop, if_pos hm, if_neg hc]
        by_cases hfull : limit ≤ (c ++ [u]).length
        · rw [if_pos hfull, firstSeenTake,
            if_neg (show ¬ limit ≤ c.length from by omega), if_neg hc,
            firstSeenTake_of_le limit _ _ hfull]
        · rw [if_neg hfull, ih (c ++ [u]) (by omega), firstSeenTake,
            if_neg (show ¬ limit ≤ c.length from by omega), if_neg hc]
    · rw [List.filter_cons_of_neg hm, inner_loop, if_neg hm, ih c h]

theorem outer_loop_spec (env : Env) (limit : Nat) :
    ∀ (authors : List String) (c : List String),
      outer_loop env limit authors c c = firstSeenTake limit c (authorStream env authors) := by
  intro authors
  induction authors with
  | nil => intro c; rfl
  | cons a rest ih =>
    intro c
    rw [show authorStream env (a :: rest) = authorBlock env a ++ authorStream env rest
      from rfl, firstSeenTake_append]
    by_cases h : limit ≤ c.length
    · rw [outer_loop, if_pos h, firstSeenTake_of_le limit _ c h,
        firstSeenTake_of_le limit _ c h]
    · rw [outer_loop, if_neg h]
      cases hf : fetch_html env (author_to_all_works_url a) with
      | none =>
        have hb : authorBlock env a = [] := by rw [authorBlock, hf]
        rw [hb, show firstSeenTake limit c [] = c from rfl]
        exact ih c
      | some html =>
        dsimp only
        by_cases he : html.isEmpty
        · rw [if_pos he]
          have hb : authorBlock env a = [] := by rw [authorBlock, hf]; simp [he]
          rw [hb, show firstSeenTake limit c [] = c from rfl]
          exact ih c
        · rw [if_neg he]
          have hb : authorBlock env a
              = (env.extractLinks html (author_to_all_works_url a)).filter TEXT_PAGE_match := by
            rw [authorBlock, hf]; simp [he]
          rw [inner_loop_spec limit _ c (by omega)]
          dsimp only
          rw [hb]
          exact ih _

theorem firstSeenTake_length (limit : Nat) :
    ∀ (l acc : List String), acc.length ≤ limit →
      (firstSeenTake limit acc l).length ≤ limit := by
  intro l
  induction l with
  | nil => intro acc h; exact h
  | cons u rest ih =>
    intro acc h
    rw [firstSeenTake]
    by_cases h1 : limit ≤ acc.length
    · rw [if_pos h1]; exact h
    · rw [if_neg h1]
      by_cases hc : acc.contains u
      · rw [if_pos hc]; exact ih acc h
      · rw [if_neg hc]
        exact ih (acc ++ [u]) (by simp; omega)

theorem firstSeenTake_nodup (limit : Nat) :
    ∀ (l acc : List String), acc.Nodup → (firstSeenTake limit acc l).Nodup := by
  intro l
  induction l with
  | nil => intro acc h; exact h
  | cons u rest ih =>
    intro acc h
    rw [firstSeenTake]
    by_cases h1 : limit ≤ acc.length
    · rw [if_pos h1]; exact h
    · rw [if_neg h1]
      by_cases hc : acc.contains u
      · rw [if_pos hc]; exact ih acc h
      · rw [if_neg hc]
        refine ih (acc ++ [u]) (List.nodup_append.mpr ⟨h, List.nodup_singleton u, ?_⟩)
        intro a ha hb
        rw [List.mem_singleton] at hb
        subst hb
        have hmem : a ∉ acc := by simpa [List.contains] using hc
        exact hmem ha

theorem firstSeenTake_sub (limit : Nat) :
    ∀ (l acc : List String) (x : String),
      x ∈ firstSeenTake limit acc l → x ∈ acc ∨ x ∈ l := by
  intro l
  induction l with
  | nil => intro acc x hx; exact Or.inl hx
  | cons u rest ih =>
    intro acc x hx
    rw [firstSeenTake] at hx
    by_cases h1 : limit ≤ acc.length
    · rw [if_pos h1] at hx; exact Or.inl hx
    · rw [if_neg h1] at hx
      by_cases hc : acc.contains u
      · rw [if_pos hc] at hx
        rcases ih acc x hx with h | h
        · exact Or.inl h
        · exact Or.inr (List.mem_cons_of_mem _ h)
      · rw [if_neg hc] at hx
        rcases ih (acc ++ [u]) x hx with h | h
        · rcases List.mem_append.mp h with h2 | h2
          · exact Or.inl h2
          · rw [List.mem_singleton] at h2
            subst h2
            exact Or.inr (List.mem_cons_self _ _)
        · exact Or.inr (List.mem_cons_of_mem _ h)

theorem authorStream_match (env : Env) :
    ∀ (authors : List String) (x : String),
      x ∈ authorStream env authors → TEXT_PAGE_match x = true := by
  intro authors
  induction authors with
  | nil => intro x hx; exact absurd hx (by simp [authorStream])
  | cons a rest ih =>
    intro x hx
    rw [show authorStream env (a :: rest) = authorBlock env a ++ authorStream env rest
      from rfl] at hx
    rcases List.mem_append.mp hx with h | h
    · rw [authorBlock] at h
      cases hf : fetch_html env (author_to_all_works_url a) with
      | none => rw [hf] at h; exact absurd h (by simp)
      | some html =>
        rw [hf] at h
        dsimp only at h
        by_cases he : html.isEmpty
        · rw [if_pos he] at h; exact absurd h (by simp)
        · rw [if_neg he] at h
          exact (List.mem_filter.mp h).2
    · exact ih x h

/-- C2: a successful collection run returns at most limit URLs, every one
    matching the text-page pattern, pairwise distinct, and the list equals
    the first-seen deduplicated truncation of the discovery stream over the
    resolved authors, so entries appear in first-seen discovery order. -/
theorem collect_contract (env : Env) (limit : Nat) (l : List String)
    (h : collect_text_page_urls env limit = Except.ok l) :
    l.length ≤ limit ∧
    (∀ u ∈ l, TEXT_PAGE_match u = true) ∧
    l.Nodup ∧
    ∃ authors, get_author_pages env = Except.ok authors ∧
      l = firstSeenTake limit [] (authorStream env authors) := by
  rw [collect_text_page_urls] at h
  cases hg : get_author_pages env with
  | error e => rw [hg] at h; exact absurd h (by simp)
  | ok authors =>
    rw [hg] at h
    dsimp only at h
    rw [Except.ok.injEq] at h
    subst h
    rw [outer_loop_spec env limit authors []]
    refine ⟨firstSeenTake_length limit _ [] (by simp), ?_, firstSeenTake_nodup limit _ [] List.nodup_nil,
      authors, rfl, rfl⟩
    intro u hu
    rcases firstSeenTake_sub limit _ [] u hu with h2 | h2
    · exact absurd h2 (by simp)
    · exact authorStream_match env authors u h2

theorem replaceAllFuel_append (pat rep : List Char) :
    ∀ (s1 : List Char) (fuel : Nat) (s2 : List Char),
      noHitFrom pat s2 s1 = true →
      replaceAllFuel pat rep (s1.length + fuel) (s1 ++ s2)
        = s1 ++ replaceAllFuel pat rep fuel s2 := by
  intro s1
  induction s1 with
  | nil => intro fuel s2 _; simp
  | cons c rest ih =>
    intro fuel s2 h
    rw [noHitFrom, Bool.and_eq_true] at h
    obtain ⟨h1, h2⟩ := h
    have hd : dropLit pat (c :: (rest ++ s2)) = none := by
      cases hdd : dropLit pat (c :: (rest ++ s2)) with
      | none => rfl
      | some r => rw [startsList, hdd] at h1; simp at h1
    have hlen : (c :: rest).length + fuel = (rest.length + fuel) + 1 := by
      simp [List.length_cons]; omega
    rw [List.cons_append, hlen, replaceAllFuel, hd]
    dsimp only
    rw [ih fuel s2 h2]
    rfl

theorem noHitFrom_append (pat : List Char) :
    ∀ (a b cont : List Char),
      noHitFrom pat cont (a ++ b)
        = (noHitFrom pat (b ++ cont) a && noHitFrom pat cont b) := by
  intro a
  induction a with
  | nil => intro b cont; simp [noHitFrom]
  | cons c rest ih =>
    intro b cont
    rw [List.cons_append, noHitFrom, noHitFrom, ih b cont,
      List.append_assoc, Bool.and_assoc]

theorem noHitFrom_of_noSlash (cont : List Char) :
    ∀ (s : List Char), (∀ c ∈ s, c ≠ '/') →
      noHitFrom patL cont s = true := by
  intro s
  induction s with
  | nil => intro _; rfl
  | cons c rest ih =>
    intro h
    have hc : c ≠ '/' := h c (List.mem_cons_self _ _)
    rw [noHitFrom, Bool.and_eq_true]
    refine ⟨?_, ih (fun x hx => h x (List.mem_cons_of_mem _ hx))⟩
    rw [patL, startsList, dropLit, if_neg (fun hh => hc hh.symm)]
    rfl

theorem dropLit_none_extend :
    ∀ (lit s1 : List Char), (∀ c ∈ lit, c ≠ '/') → (∀ c ∈ s1, c ≠ '/') →
      dropLit lit s1 = none → ∀ s2, dropLit lit (s1 ++ ('/' :: s2)) = none := by
  intro lit
  induction lit with
  | nil => intro s1 _ _ h3; exact absurd h3 (by simp [dropLit])
  | cons a lit ih =>
    intro s1 h1 h2 h3 s2
    cases s1 with
    | nil =>
      have ha : a ≠ '/' := h1 a (List.mem_cons_self _ _)
      simp only [List.nil_append, dropLit]
      rw [if_neg ha]
    | cons d ds =>
      rw [List.cons_append, dropLit]
      rw [dropLit] at h3
      by_cases had : a = d
      · rw [if_pos had] at h3 ⊢
        exact ih ds (fun c hc => h1 c (List.mem_cons_of_mem _ hc))
          (fun c hc => h2 c (List.mem_cons_of_mem _ hc)) h3 s2
      · rw [if_neg had]

theorem noHitFrom_pre (slug : List Char) (hns : ∀ c ∈ slug, c ≠ '/')
    (hni : dropLit idxL slug = none) (pre : String)
    (hpre : pre ∈ (["https://ilibrary.ru/author/", "http://ilibrary.ru/author/",
      "https://www.ilibrary.ru/author/", "http://www.ilibrary.ru/author/"] : List String)) :
    noHitFrom patL (slug ++ patL) pre.toList = true := by
  have hkey : dropLit idxL (slug ++ ('/' :: idxL)) = none :=
    dropLit_none_extend idxL slug (by decide) hns hni idxL
  rw [List.mem_cons, List.mem_cons, List.mem_cons, List.mem_singleton] at hpre
  rcases hpre with h | h | h | h <;> subst h
  · rw [show ("https://ilibrary.ru/author/").toList
      = ['h','t','t','p','s',':','/','/','i','l','i','b','r','a','r','y',
         '.','r','u','/','a','u','t','h','o','r','/'] from rfl]
    simp [noHitFrom, startsList, dropLit, patL, idxL]
    exact hkey
  · rw [show ("http://ilibrary.ru/author/").toList
      = ['h','t','t','p',':','/','/','i','l','i','b','r','a','r','y',
         '.','r','u','/','a','u','t','h','o','r','/'] from rfl]
    simp [noHitFrom, startsList, dropLit, patL, idxL]
    exact hkey
  · rw [show ("https://www.ilibrary.ru/author/").toList
      = ['h','t','t','p','s',':','/','/','w','w','w','.','i','l','i','b','r','a','r','y',
         '.','r','u','/','a','u','t','h','o','r','/'] from rfl]
    simp [noHitFrom, startsList, dropLit, patL, idxL]
    exact hkey
  · rw [show ("http://www.ilibrary.ru/author/").toList
      = ['h','t','t','p',':','/','/','w','w','w','.','i','l','i','b','r','a','r','y',
         '.','r','u','/','a','u','t','h','o','r','/'] from rfl]
    simp [noHitFrom, startsList, dropLit, patL, idxL]
    exact hkey

/-- C8 counterexample: a URL matching the author-index pattern whose slug is
    itself the literal index.html is transformed by replacing both
    occurrences, not only the trailing one, so the derived URL differs from
    the claimed trailing-only replacement. -/
theorem author_url_replace_cex :
    AUTHOR_PAGE_match "https://ilibrary.ru/author/index.html/index.html" = true ∧
    author_to_all_works_url "https://ilibrary.ru/author/index.html/index.html"
      = "https://ilibrary.ru/author/l.all/index.html/l.all/index.html" ∧
    author_to_all_works_url "https://ilibrary.ru/author/index.html/index.html"
      ≠ "https://ilibrary.ru/author/index.html/l.all/index.html" := by
  refine ⟨by decide, by decide, by decide⟩

/-- C8 amended: the source replaces every occurrence of the substring
    consisting of slash and index.html; for an author-index URL whose slug
    does not itself begin with index.html, the only occurrence is the
    trailing one, and the derived works-list URL is exactly the claimed
    trailing replacement with the rest of the URL unchanged. -/
theorem author_url_replace (pre slug : String)
    (hpre : pre ∈ (["https://ilibrary.ru/author/", "http://ilibrary.ru/author/",
        "https://www.ilibrary.ru/author/", "http://www.ilibrary.ru/author/"] : List String))
    (hns : ∀ c ∈ slug.toList, c ≠ '/')
    (hni : dropLit "index.html".toList slug.toList = none) :
    author_to_all_works_url (pre ++ slug ++ "/index.html")
      = pre ++ slug ++ "/l.all/index.html" := by
  apply String.ext
  have hpatL : "/index.html".toList = patL := rfl
  have hni' : dropLit idxL slug.toList = none := by
    rw [show "index.html".toList = idxL from rfl] at hni; exact hni
  have hnh : noHitFrom patL patL (pre.toList ++ slug.toList) = true := by
    rw [noHitFrom_append]
    rw [noHitFrom_pre slug.toList hns hni' pre hpre,
      noHitFrom_of_noSlash patL slug.toList hns]
    rfl
  show replaceAllFuel "/index.html".toList "/l.all/index.html".toList
      (pre ++ slug ++ "/index.html").toList.length (pre ++ slug ++ "/index.html").toList
    = (pre ++ slug ++ "/l.all/index.html").data
  have hdata : (pre ++ slug ++ "/index.html").toList
      = (pre.toList ++ slug.toList) ++ patL := by
    show (pre ++ slug ++ "/index.html").data = (pre.data ++ slug.data) ++ patL
    rw [String.data_append, String.data_append]
    rfl
  have hdata2 : (pre ++ slug ++ "/l.all/index.html").data
      = (pre.toList ++ slug.toList) ++ "/l.all/index.html".toList := by
    show (pre ++ slug ++ "/l.all/index.html").data
      = (pre.data ++ slug.data) ++ "/l.all/index.html".toList
    rw [String.data_append, String.data_append]
    rfl
  rw [hdata, hdata2, hpatL]
  have hlen : ((pre.toList ++ slug.toList) ++ patL).length
      = (pre.toList ++ slug.toList).length + 11 := by
    rw [List.length_append]
    rfl
  rw [hlen, replaceAllFuel_append patL "/l.all/index.html".toList
    (pre.toList ++ slug.toList) 11 patL hnh]
  rw [show replaceAllFuel patL "/l.all/index.html".toList 11 patL
    = "/l.all/index.html".toList from by decide]

theorem author_url_replace_witness :
    author_to_all_works_url ("https://ilibrary.ru/author/" ++ "chekhov" ++ "/index.html")
      = "https://ilibrary.ru/author/" ++ "chekhov" ++ "/l.all/index.html" :=
  author_url_replace "https://ilibrary.ru/author/" "chekhov"
    (by simp) (by decide) (by decide)

set_option maxRecDepth 40000 in
theorem collect_contract_witness :
    collect_text_page_urls envW 5
      = Except.ok ["https://ilibrary.ru/text/1/p.1/index.html",
                   "https://ilibrary.ru/text/2/p.1/index.html"] ∧
    (["https://ilibrary.ru/text/1/p.1/index.html",
      "https://ilibrary.ru/text/2/p.1/index.html"] : List String).length ≤ 5 := by
  have h : collect_text_page_urls envW 5
      = Except.ok ["https://ilibrary.ru/text/1/p.1/index.html",
                   "https://ilibrary.ru/text/2/p.1/index.html"] := by rfl
  exact ⟨h, (collect_contract envW 5 _ h).1⟩

theorem size_cap_witness :
    MAX_BYTES < totalLen (envBig.fetch "u").chunks ∧
    fetch_classify envBig "u" = FetchResult.skippedTooLarge ∧
    fetch_html envBig "u" = none := by
  have hl : totalLen (envBig.fetch "u").chunks = MAX_BYTES + 1 := by
    simp [envBig, totalLen]
  have hlt : MAX_BYTES < totalLen (envBig.fetch "u").chunks := by rw [hl]; omega
  obtain ⟨h1, h2⟩ := size_cap envBig "u" rfl (by decide)
  rw [if_pos hlt] at h1 h2
  exact ⟨hlt, h1, h2⟩

theorem ctype_gate_witness :
    fetch_classify envJson "u" = FetchResult.skippedNotHtml ∧
    fetch_html envJson "u" = none := by
  obtain ⟨h1, h2, _, _⟩ := ctype_gate envJson "u" rfl (by decide)
  exact ⟨h1, h2⟩

theorem empty_body_witness :
    main_run envEmpty = Except.error seedFailureMsg ∧
    download_loop envEmpty 5 ["u"] 0 [] [] = download_loop envEmpty 5 [] 0 [] [] := by
  have hf : ∀ u, fetch_html envEmpty u = some "" := fun u => rfl
  exact ⟨(empty_body_like_failure.1 envEmpty (hf _)).1,
    empty_body_like_failure.2.2.1 envEmpty 5 "u" [] 0 [] [] (hf _)⟩

set_option maxRecDepth 40000 in
/-- C9 counterexample: in a run that saves one page, the trace prefix
    consisting of the document write alone has a persisted document with no
    persisted index entry, so per-document index durability fails at that
    intermediate state. -/
theorem index_not_durable :
    ¬ indexDurable (download_trace envW ["u"] 1) := by
  intro h
  have htr : download_trace envW ["u"] 1
      = [FsEvent.writeDoc 1 bigBody, FsEvent.writeIndex [(1, "u")]] := by decide
  rw [htr] at h
  have hpre : [FsEvent.writeDoc 1 bigBody]
      <+: [FsEvent.writeDoc 1 bigBody, FsEvent.writeIndex [(1, "u")]] :=
    ⟨[FsEvent.writeIndex [(1, "u")]], rfl⟩
  obtain ⟨u, hu⟩ := h _ hpre (1, bigBody) (by simp [docsIn])
  have hempty : indexState [FsEvent.writeDoc 1 bigBody] = [] := rfl
  rw [hempty] at hu
  exact absurd hu (by simp)

end Crawler
